import Mathlib

/-!
# Maximum absolute adjacent difference: kernels, partitioned reducer, harness

A shallow embedding of `src/main.cpp`.

* `std::vector<int>` is a `List Int` whose elements satisfy `isInt32`.
* `int` subtraction (inside `std::adjacent_difference`) is `sub32`, the
  two's-complement result; `long long` arithmetic is `sub64` / `llabs`.
* `std::size_t` values are `Nat`: every index computed by the program is
  bounded by the length of the vector, so no `size_t` operation wraps.
* `unsigned K` is a `Nat` below `2 ^ 32`; the narrowing assignment
  `K = N - 1` keeps the explicit `% 2 ^ 32`.
* an element access `a[i]` outside the vector makes the result `none`.
* the futures of `custom_adj` are a step relation: a task completes, or the
  combining loop reads its next future.
-/

namespace AdjLab

/-! ## Machine integers -/

/-- Smallest value of `int`. -/
def INT_MIN : Int := -2147483648

/-- Largest value of `int`. -/
def INT_MAX : Int := 2147483647

/-- Largest value of `unsigned`, plus one. -/
def UINT_MOD : Nat := 4294967296

/-- Largest value of `long long`. -/
def LLONG_MAX : Int := 9223372036854775807

/-- Smallest value of `long long`. -/
def LLONG_MIN : Int := -9223372036854775808

/-- The value is representable as an `int`. -/
def isInt32 (x : Int) : Prop := INT_MIN ≤ x ∧ x ≤ INT_MAX

instance (x : Int) : Decidable (isInt32 x) := by
  unfold isInt32; exact inferInstance

/-- Two's-complement reduction of an integer to 32 bits. -/
def wrap32 (x : Int) : Int := (x + 2147483648) % 4294967296 - 2147483648

/-- Two's-complement reduction of an integer to 64 bits. -/
def wrap64 (x : Int) : Int :=
  (x + 9223372036854775808) % 18446744073709551616 - 9223372036854775808

/-- The `int` subtraction `x - y`. -/
def sub32 (x y : Int) : Int := wrap32 (x - y)

/-- The `long long` subtraction `x - y`. -/
def sub64 (x y : Int) : Int := wrap64 (x - y)

/-- The function `std::llabs` on a `long long`. -/
def llabs (x : Int) : Int := if x < 0 then wrap64 (-x) else x

/-! ## Sequential baseline: `lib_adj` -/

/-- The loop of `std::adjacent_difference` after the first element: `acc` is the
previous element, each output is the `int` difference `val - acc`. -/
def adjacent_difference_go : Int → List Int → List Int
  | _, [] => []
  | acc, val :: rest => sub32 val acc :: adjacent_difference_go val rest

/-- The algorithm `std::adjacent_difference` on a range of `int`: the first
output is the first element, every later output is the `int` difference of an
element and its predecessor. -/
def adjacent_difference : List Int → List Int
  | [] => []
  | x :: rest => x :: adjacent_difference_go x rest

/-- One iteration of the scan `v = llabs(d[i]); if (v > m) m = v;`. -/
def lib_step (m : Int) (di : Int) : Int :=
  let v := llabs di
  if v > m then v else m

/-- The function `lib_adj`: differences into `d`, then the scan over
`d[1], …, d[size - 1]`. -/
def lib_adj (a : List Int) : Int :=
  if a.length < 2 then 0
  else
    let d := adjacent_difference a
    (d.drop 1).foldl lib_step 0

/-! ## Transform-then-reduce: `pol_adj` -/

/-- The three execution policies passed to `pol_adj`. -/
inductive Exec where
  | seq
  | par
  | par_unseq
  deriving DecidableEq

/-- The lambda of the transform call: `llabs((long long)y - (long long)x)`. -/
def pol_diff (x y : Int) : Int := llabs (sub64 y x)

/-- The operands that the transform call of `pol_adj` supplies for the second
parameter `y` of its lambda. The call
`std::transform(p, a.begin(), a.begin() + n, d.begin(), lambda)` names one input
range, `[a.begin(), a.begin() + n)`, and no second one, so there are none, whatever
the vector. -/
def pol_second_range (_a : List Int) : List Int := []

/-- The buffer `d` of `pol_adj` after the transform call. The buffer is allocated
as `n = size - 1` zeros (`std::vector<long long> d(n)`); the call overwrites its
leading entries with the lambda applied to an element of the input range as `x`
and the matching operand for `y`. The call as written has no operand for `y` (a
lambda of two parameters where the overload with one input range expects an
operation of one), so no entry is computed and the buffer keeps its zeros. The
policy does not enter. -/
def pol_transform (_p : Exec) (a : List Int) : List Int :=
  let n := a.length - 1
  let d := List.replicate n (0 : Int)
  let out := List.zipWith pol_diff (a.take n) (pol_second_range a)
  out ++ d.drop out.length

/-- The combining lambda of the reduce call: `x > y ? x : y`. -/
def pol_op (x y : Int) : Int := if x > y then x else y

/-- A grouping chosen by `std::reduce`: the operands are the initial value
(`init`) and the buffer entries (`elem i`), combined pairwise in any shape and
any order. -/
inductive Sched where
  | init : Sched
  | elem : Nat → Sched
  | node : Sched → Sched → Sched

/-- The operands of a grouping, left to right; `none` is the initial value. -/
def Sched.operands : Sched → List (Option Nat)
  | Sched.init => [none]
  | Sched.elem i => [some i]
  | Sched.node l r => l.operands ++ r.operands

/-- A grouping is admissible for a buffer of `n` entries when its operands are
the initial value and each of the `n` entries, each exactly once, in any order. -/
def Sched.admissible (t : Sched) (n : Nat) : Prop :=
  List.Perm t.operands (none :: (List.range n).map some)

/-- The value of a grouping over buffer `d` with initial value `i0`. -/
def Sched.eval (d : List Int) (i0 : Int) : Sched → Int
  | Sched.init => i0
  | Sched.elem i => d.getD i 0
  | Sched.node l r => pol_op (Sched.eval d i0 l) (Sched.eval d i0 r)

/-- The left-to-right grouping `((init ∘ d[0]) ∘ d[1]) ∘ …` over `n` entries. -/
def Sched.leftFold : Nat → Sched
  | 0 => Sched.init
  | n + 1 => Sched.node (Sched.leftFold n) (Sched.elem n)

/-- The function `pol_adj` under policy `p`, with `t` the grouping that the
reduce call uses. -/
def pol_adj (a : List Int) (p : Exec) (t : Sched) : Int :=
  if a.length < 2 then 0
  else
    let d := pol_transform p a
    Sched.eval d 0 t

/-! ## Partitioned reducer: `custom_adj` -/

/-- The loop body of the worker lambda `w`, run for `cnt` iterations from index
`i` with running maximum `m`; an index outside the vector yields `none`. -/
def w_loop (a : List Int) : Nat → Nat → Int → Option Int
  | 0, _, m => some m
  | cnt + 1, i, m =>
    match a[i]?, a[i - 1]? with
    | some ai, some ap =>
      let v := llabs (sub64 ai ap)
      w_loop a cnt (i + 1) (if v > m then v else m)
    | _, _ => none

/-- The worker lambda `w(s, e)`: `0` when `s >= e`, else the scan for
`i = s + 1, …, e` (that is `e - s` iterations). -/
def w (a : List Int) (s e : Nat) : Option Int :=
  if s ≥ e then some 0 else w_loop a (e - s) (s + 1) 0

/-- A task placed in the vector of futures `f`. -/
inductive Job where
  | deferred : Job
  | async : Nat → Nat → Job
  deriving DecidableEq

/-- One iteration of the dispatch loop on the state `(ps, f)`. -/
def dispatch_step (base rem : Nat) (st : Nat × List Job) (k : Nat) : Nat × List Job :=
  let cnt := base + (if k < rem then 1 else 0)
  if cnt = 0 then (st.1, st.2 ++ [Job.deferred])
  else
    let pe := st.1 + cnt - 1
    let s := st.1
    let e := pe + 1
    (st.1 + cnt, st.2 ++ [Job.async s e])

/-- The dispatch loop `for (k = 0; k < K; k++)`, from `ps = 0` and empty `f`. -/
def dispatch (total K : Nat) : Nat × List Job :=
  (List.range K).foldl (dispatch_step (total / K) (total % K)) (0, [])

/-- The clamping of `K`: `if (K < 1) K = 1; if (K > N - 1) K = N - 1;`, the
second assignment narrowing to `unsigned`. -/
def clampK (N K : Nat) : Nat :=
  let K1 := if K < 1 then 1 else K
  if K1 > N - 1 then (N - 1) % UINT_MOD else K1

/-- The jobs that `custom_adj` places in `f` for a vector of `N ≥ 2` elements. -/
def custom_jobs (N K : Nat) : List Job :=
  (dispatch (N - 1) (clampK N K)).2

/-- The value delivered by the future of a job. -/
def Job.run (a : List Int) : Job → Option Int
  | Job.deferred => some 0
  | Job.async s e => w a s e

/-- The combining loop `for (auto& x : f) { v = x.get(); if (v > g) g = v; }`. -/
def combine : List (Option Int) → Int → Option Int
  | [], g => some g
  | none :: _, _ => none
  | some v :: rest, g => combine rest (if v > g then v else g)

/-- The function `custom_adj`. -/
def custom_adj (a : List Int) (K : Nat) : Option Int :=
  if a.length < 2 then some 0
  else
    let N := a.length
    let f := (custom_jobs N K).map (Job.run a)
    combine f 0

/-! ## Reference values -/

/-- The adjacent differences `a[i] - a[i-1]`, `i = 1, …, N - 1`, in unbounded
integers. -/
def adjDiffs : List Int → List Int
  | x :: y :: rest => (y - x) :: adjDiffs (y :: rest)
  | _ => []

/-- The absolute adjacent differences `|a[i] - a[i-1]|`, `i = 1, …, N - 1`, in
unbounded integers. -/
def absDiffs (a : List Int) : List Int := (adjDiffs a).map (fun d => |d|)

/-- The maximum of a list of integers, `0` for the empty list. -/
def maxOf (l : List Int) : Int := l.foldr max 0

/-- The maximum absolute adjacent difference in unbounded integers. -/
def maxAbsDiff (a : List Int) : Int := maxOf (absDiffs a)

/-- The 64-bit absolute differences of neighbours, `llabs((long long)a[i] -
(long long)a[i - 1])`, as the worker of `custom_adj` computes them. -/
def diffs64 : List Int → List Int
  | x :: y :: rest => pol_diff x y :: diffs64 (y :: rest)
  | _ => []

/-- The ranges `(s, e)` of the asynchronous jobs of `custom_adj`, in order. -/
def chunk_ranges (N K : Nat) : List (Nat × Nat) :=
  (custom_jobs N K).filterMap (fun j =>
    match j with
    | Job.async s e => some (s, e)
    | Job.deferred => none)

/-- The first pair index of chunk `k`: `k * base + min k rem`. -/
def chunk_start (base rem k : Nat) : Nat := k * base + min k rem

/-- The job of chunk `k` when every chunk has at least one pair. -/
def chunk_job (base rem k : Nat) : Job :=
  Job.async (chunk_start base rem k) (chunk_start base rem (k + 1))

/-- The value of an operand of a grouping. -/
def operand_val (d : List Int) (i0 : Int) : Option Nat → Int
  | none => i0
  | some i => d.getD i 0

/-- The range of chunk `k` when every chunk has at least one pair. -/
def chunk_range (base rem k : Nat) : Nat × Nat :=
  (chunk_start base rem k, chunk_start base rem (k + 1))

/-! ## Benchmark harness -/

/-- A result record `Row`. The averaged time `t` is a wall-clock measurement and
is left out; `mx` is the value the measured kernel delivered. -/
structure Row where
  alg : String
  pol : String
  n : Nat
  K : Nat
  hw : Nat
  mx : Option Int
  seed : Nat

/-- The configuration of a record: algorithm, policy, size, `K` and seed. -/
def Row.config (r : Row) : String × String × Nat × Nat × Nat :=
  (r.alg, r.pol, r.n, r.K, r.seed)

/-- The sizes `S` of `main`. -/
def S : List Nat := [1000, 10000, 100000, 1000000]

/-- The partition counts `KV` of `main`. -/
def KV : List Nat := [1, 2, 4, 8, 16, 32]

/-- The number of trials `T` of `main`. -/
def T : Nat := 5

/-- The seed base `base` of `main`. -/
def seed_base : Nat := 1111

/-- The loop `for (unsigned K : KV) { if (K > n) break; … R.push_back(…); }`. -/
def custom_rows (a : List Int) (n hw seed : Nat) : List Nat → List Row
  | [] => []
  | K :: rest =>
    if K > n then []
    else
      { alg := "custom_split", pol := "custom", n := n, K := K, hw := hw,
        mx := custom_adj a K, seed := seed } :: custom_rows a n hw seed rest

/-- The body of the loops of `main` for one size `n` and one trial `ti`; `gen` is
`make_random_sequence` with its default bounds and `sched` the grouping that the
reduce call of `pol_adj` uses in the last repetition. -/
def trial_rows (hw : Nat) (gen : Nat → Nat → List Int) (sched : Exec → List Int → Sched)
    (n ti : Nat) : List Row :=
  let seed := seed_base + ti
  let a := gen n seed
  [ { alg := "library_adjacent_difference", pol := "none", n := n, K := 0, hw := hw,
      mx := some (lib_adj a), seed := seed },
    { alg := "transform+reduce", pol := "seq", n := n, K := 0, hw := hw,
      mx := some (pol_adj a Exec.seq (sched Exec.seq a)), seed := seed },
    { alg := "transform+reduce", pol := "par", n := n, K := 0, hw := hw,
      mx := some (pol_adj a Exec.par (sched Exec.par a)), seed := seed },
    { alg := "transform+reduce", pol := "par_unseq", n := n, K := 0, hw := hw,
      mx := some (pol_adj a Exec.par_unseq (sched Exec.par_unseq a)), seed := seed } ]
  ++ custom_rows a n hw seed KV

/-- The log `R` at the end of the loops of `main`; `detected` is the value of
`std::thread::hardware_concurrency()`. -/
def main_rows (detected : Nat) (gen : Nat → Nat → List Int)
    (sched : Exec → List Int → Sched) : List Row :=
  let hw := if detected = 0 then 2 else detected
  S.flatMap (fun n => (List.range T).flatMap (fun ti => trial_rows hw gen sched n ti))

/-- The ten configurations that the spec lists for size `n` and trial `ti`. -/
def expected_trial (n ti : Nat) : List (String × String × Nat × Nat × Nat) :=
  [ ("library_adjacent_difference", "none", n, 0, 1111 + ti),
    ("transform+reduce", "seq", n, 0, 1111 + ti),
    ("transform+reduce", "par", n, 0, 1111 + ti),
    ("transform+reduce", "par_unseq", n, 0, 1111 + ti),
    ("custom_split", "custom", n, 1, 1111 + ti),
    ("custom_split", "custom", n, 2, 1111 + ti),
    ("custom_split", "custom", n, 4, 1111 + ti),
    ("custom_split", "custom", n, 8, 1111 + ti),
    ("custom_split", "custom", n, 16, 1111 + ti),
    ("custom_split", "custom", n, 32, 1111 + ti) ]

/-- The configurations that the spec lists for the whole run, in order. -/
def expected_configs : List (String × String × Nat × Nat × Nat) :=
  [1000, 10000, 100000, 1000000].flatMap (fun n =>
    [0, 1, 2, 3, 4].flatMap (fun ti => expected_trial n ti))

/-! ## Element reads of the worker -/

/-- The index pairs `(i - 1, i)` of the elements `a[i - 1]`, `a[i]` that the loop
of `w` reads, for `cnt` iterations from index `i`, in order. -/
def w_loop_reads : Nat → Nat → List (Nat × Nat)
  | 0, _ => []
  | cnt + 1, i => (i - 1, i) :: w_loop_reads cnt (i + 1)

/-- The index pairs read by `w(s, e)`: none when `s >= e`, else those of the scan
for `i = s + 1, …, e`. -/
def w_reads (s e : Nat) : List (Nat × Nat) :=
  if s ≥ e then [] else w_loop_reads (e - s) (s + 1)

/-- The index pairs read by the task of a job. -/
def Job.reads : Job → List (Nat × Nat)
  | Job.deferred => []
  | Job.async s e => w_reads s e

/-! ## The join of `custom_adj` as a step relation -/

/-- The state of a run of `custom_adj` once the dispatch loop is over: for each
future whether its task has completed, the number of futures that the combining
loop has consumed, and the running maximum `g`. -/
structure JoinState where
  ready : List Bool
  next : Nat
  g : Int
  deriving DecidableEq

/-- An event of a run: the asynchronous task of future `k` completes, or the
combining loop performs its next `x.get()` followed by `if (v > g) g = v`. -/
inductive JoinEvent where
  | finish : Nat → JoinEvent
  | get : JoinEvent
  deriving DecidableEq

/-- The state in which the combining loop is entered, before any completion is
observed: nothing consumed, `g = 0`. -/
def join_init (jobs : List Job) : JoinState :=
  { ready := List.replicate jobs.length false, next := 0, g := 0 }

/-- One event. The task of an asynchronous job completes once; `x.get()` on the
future of an asynchronous job returns only when its task has completed, and on a
deferred job it runs the task itself; the value read is then combined into `g`. -/
def join_step (a : List Int) (jobs : List Job) (st : JoinState) :
    JoinEvent → Option JoinState
  | JoinEvent.finish k =>
    match jobs[k]? with
    | some (Job.async _ _) =>
      if st.ready.getD k true = false then
        some { ready := st.ready.set k true, next := st.next, g := st.g }
      else none
    | _ => none
  | JoinEvent.get =>
    match jobs[st.next]? with
    | none => none
    | some j =>
      let available :=
        match j with
        | Job.deferred => true
        | Job.async _ _ => st.ready.getD st.next false
      if available = true then
        match Job.run a j with
        | some v =>
          some { ready := st.ready.set st.next true, next := st.next + 1,
                 g := if v > st.g then v else st.g }
        | none => none
      else none

/-- A sequence of events, from state `st`; `none` when an event is not enabled. -/
def join_run (a : List Int) (jobs : List Job) : JoinState → List JoinEvent → Option JoinState
  | st, [] => some st
  | st, ev :: rest =>
    match join_step a jobs st ev with
    | none => none
    | some st1 => join_run a jobs st1 rest

/-- The schedule in which each task completes just before its future is read:
`finish 0, get, finish 1, get, …` for `K` futures. -/
def join_in_turn (K : Nat) : List JoinEvent :=
  (List.range K).flatMap (fun k => [JoinEvent.finish k, JoinEvent.get])

/-- The invariant of the runs of the join: one flag per future, the futures
consumed so far are those of completed tasks, and `g` is the combination of their
values in order. -/
def JoinInv (a : List Int) (jobs : List Job) (st : JoinState) : Prop :=
  st.ready.length = jobs.length
    ∧ st.next ≤ jobs.length
    ∧ (∀ k, k < st.next → st.ready.getD k false = true)
    ∧ combine ((jobs.take st.next).map (Job.run a)) 0 = some st.g

/-! ## Machine arithmetic -/

theorem wrap64_of_range {x : Int} (h1 : LLONG_MIN ≤ x) (h2 : x ≤ LLONG_MAX) :
    wrap64 x = x := by
  unfold wrap64
  unfold LLONG_MIN at h1
  unfold LLONG_MAX at h2
  rw [Int.emod_eq_of_lt (by omega) (by omega)]
  omega

theorem wrap32_of_range {x : Int} (h : isInt32 x) : wrap32 x = x := by
  unfold wrap32
  unfold isInt32 INT_MIN INT_MAX at h
  rw [Int.emod_eq_of_lt (by omega) (by omega)]
  omega

theorem pol_diff_exact {x y : Int} (hx : isInt32 x) (hy : isInt32 y) :
    pol_diff x y = |y - x| := by
  unfold isInt32 INT_MIN INT_MAX at hx hy
  unfold pol_diff sub64
  rw [wrap64_of_range (by unfold LLONG_MIN; omega) (by unfold LLONG_MAX; omega)]
  unfold llabs
  split
  · rw [wrap64_of_range (by unfold LLONG_MIN; omega) (by unfold LLONG_MAX; omega)]
    rw [abs_of_neg (by assumption)]
  · rw [abs_of_nonneg (by omega)]

theorem llabs_of_int32 {x : Int} (h : isInt32 x) : llabs x = |x| := by
  unfold isInt32 INT_MIN INT_MAX at h
  unfold llabs
  split
  · rw [wrap64_of_range (by unfold LLONG_MIN; omega) (by unfold LLONG_MAX; omega)]
    rw [abs_of_neg (by assumption)]
  · rw [abs_of_nonneg (by omega)]

theorem ite_gt_eq_max (v m : Int) : (if v > m then v else m) = max m v := by
  split
  · rw [max_eq_right (by omega)]
  · rw [max_eq_left (by omega)]

/-! ## Lists of differences and their maximum -/

theorem maxOf_nil : maxOf [] = 0 := rfl

theorem maxOf_cons (x : Int) (l : List Int) : maxOf (x :: l) = max x (maxOf l) := rfl

theorem maxOf_nonneg (l : List Int) : 0 ≤ maxOf l := by
  induction l with
  | nil => simp [maxOf]
  | cons x l ih => rw [maxOf_cons]; exact le_max_of_le_right ih

theorem maxOf_append (l1 l2 : List Int) :
    maxOf (l1 ++ l2) = max (maxOf l1) (maxOf l2) := by
  induction l1 with
  | nil =>
    rw [List.nil_append, maxOf_nil, max_eq_right (maxOf_nonneg l2)]
  | cons x l ih =>
    rw [List.cons_append, maxOf_cons, maxOf_cons, ih, max_assoc]

theorem le_maxOf {l : List Int} {x : Int} (h : x ∈ l) : x ≤ maxOf l := by
  induction l with
  | nil => cases h
  | cons y l ih =>
    rw [maxOf_cons]
    rcases List.mem_cons.mp h with h1 | h1
    · rw [h1]; exact le_max_left _ _
    · exact le_max_of_le_right (ih h1)

theorem maxOf_mem (l : List Int) : maxOf l = 0 ∨ maxOf l ∈ l := by
  induction l with
  | nil => left; rfl
  | cons y l ih =>
    rw [maxOf_cons]
    rcases max_choice y (maxOf l) with h | h
    · right; rw [h]; exact List.mem_cons_self _ _
    · rw [h]
      rcases ih with h0 | h1
      · left; exact h0
      · right; exact List.mem_cons_of_mem _ h1

theorem absDiffs_cons_cons (x y : Int) (rest : List Int) :
    absDiffs (x :: y :: rest) = |y - x| :: absDiffs (y :: rest) := rfl

theorem diffs64_eq_absDiffs :
    ∀ (a : List Int), (∀ x ∈ a, isInt32 x) → diffs64 a = absDiffs a
  | [], _ => rfl
  | [_], _ => rfl
  | x :: y :: rest, h => by
    have ih := diffs64_eq_absDiffs (y :: rest)
      (fun z hz => h z (List.mem_cons_of_mem _ hz))
    have hx : isInt32 x := h x (List.mem_cons_self _ _)
    have hy : isInt32 y := h y (List.mem_cons_of_mem _ (List.mem_cons_self _ _))
    rw [absDiffs_cons_cons, ← ih, ← pol_diff_exact hx hy]
    rfl

theorem length_diffs64 : ∀ (a : List Int), (diffs64 a).length = a.length - 1
  | [] => rfl
  | [_] => rfl
  | x :: y :: rest => by
    have ih := length_diffs64 (y :: rest)
    simp only [diffs64, List.length_cons] at ih ⊢
    omega

theorem length_absDiffs : ∀ (a : List Int), (absDiffs a).length = a.length - 1
  | [] => rfl
  | [_] => rfl
  | x :: y :: rest => by
    have ih := length_absDiffs (y :: rest)
    rw [absDiffs_cons_cons]
    simp only [List.length_cons] at ih ⊢
    omega

/-- The transform call of `pol_adj` leaves the buffer as allocated: `size - 1`
zeros. -/
theorem pol_transform_eq (p : Exec) (a : List Int) :
    pol_transform p a = List.replicate (a.length - 1) 0 := by
  simp [pol_transform, pol_second_range]

theorem diffs64_getElem? :
    ∀ (a : List Int) (j : Nat) (x y : Int), a[j]? = some x → a[j + 1]? = some y →
      (diffs64 a)[j]? = some (pol_diff x y)
  | [], _, _, _, h, _ => by simp at h
  | [_], _, _, _, _, h => by simp at h
  | u :: v :: rest, 0, x, y, h1, h2 => by
    simp only [List.getElem?_cons_zero, List.getElem?_cons_succ, Option.some.injEq,
      Nat.zero_add] at h1 h2
    simp [diffs64, h1, h2]
  | u :: v :: rest, j + 1, x, y, h1, h2 => by
    simp only [List.getElem?_cons_succ] at h1 h2
    have ih := diffs64_getElem? (v :: rest) j x y h1 (by simpa using h2)
    simpa [diffs64] using ih

theorem absDiffs_getElem? :
    ∀ (a : List Int) (j : Nat) (x y : Int), a[j]? = some x → a[j + 1]? = some y →
      (absDiffs a)[j]? = some |y - x|
  | [], _, _, _, h, _ => by simp at h
  | [_], _, _, _, _, h => by simp at h
  | u :: v :: rest, 0, x, y, h1, h2 => by
    simp only [List.getElem?_cons_zero, List.getElem?_cons_succ, Option.some.injEq,
      Nat.zero_add] at h1 h2
    simp [absDiffs_cons_cons, h1, h2]
  | u :: v :: rest, j + 1, x, y, h1, h2 => by
    simp only [List.getElem?_cons_succ] at h1 h2
    have ih := absDiffs_getElem? (v :: rest) j x y h1 (by simpa using h2)
    simpa [absDiffs_cons_cons] using ih

/-! ## The worker of `custom_adj` -/

theorem w_loop_eq (a : List Int) :
    ∀ (cnt i : Nat) (m : Int), 1 ≤ i → i + cnt ≤ a.length → 0 ≤ m →
      w_loop a cnt i m = some (max m (maxOf (((diffs64 a).drop (i - 1)).take cnt)))
  | 0, i, m, _, _, hm => by
    simp [w_loop, maxOf_nil, max_eq_left hm]
  | cnt + 1, i, m, hi, hlen, hm => by
    have h1 : i < a.length := by omega
    have h2 : i - 1 < a.length := by omega
    have e1 : a[i]? = some a[i] := List.getElem?_eq_getElem h1
    have e2 : a[i - 1]? = some a[i - 1] := List.getElem?_eq_getElem h2
    have e1b : a[i - 1 + 1]? = some a[i] := by
      rw [Nat.sub_add_cancel hi]; exact e1
    have e3 := diffs64_getElem? a (i - 1) _ _ e2 e1b
    have hlt : i - 1 < (diffs64 a).length := by
      rw [length_diffs64]; omega
    have e4 : (diffs64 a)[i - 1] = pol_diff a[i - 1] a[i] := by
      rw [List.getElem?_eq_getElem hlt] at e3
      exact Option.some.inj e3
    have hdrop : (diffs64 a).drop (i - 1)
        = pol_diff a[i - 1] a[i] :: (diffs64 a).drop (i + 1 - 1) := by
      rw [List.drop_eq_getElem_cons hlt, e4, Nat.add_sub_cancel, Nat.sub_add_cancel hi]
    have ih := w_loop_eq a cnt (i + 1) (max m (pol_diff a[i - 1] a[i]))
      (by omega) (by omega) (le_max_of_le_left hm)
    rw [w_loop, e1, e2]
    simp only []
    rw [ite_gt_eq_max]
    change w_loop a cnt (i + 1) (max m (pol_diff a[i - 1] a[i])) = _
    rw [ih, hdrop, List.take_succ_cons, maxOf_cons, max_assoc]

theorem w_eq (a : List Int) (s e : Nat) (hse : s < e) (he : e ≤ a.length - 1) :
    w a s e = some (maxOf (((diffs64 a).drop s).take (e - s))) := by
  unfold w
  rw [if_neg (by omega)]
  rw [w_loop_eq a (e - s) (s + 1) 0 (by omega) (by omega) (le_refl 0)]
  rw [Nat.add_sub_cancel, max_eq_right (maxOf_nonneg _)]

/-! ## The combining loop -/

theorem combine_append (l1 l2 : List (Option Int)) (g : Int) :
    combine (l1 ++ l2) g = (combine l1 g).bind (combine l2) := by
  induction l1 generalizing g with
  | nil => rfl
  | cons x l ih =>
    cases x with
    | none => rfl
    | some v =>
      rw [List.cons_append, combine, combine, ih]

/-! ## The dispatch loop -/

theorem chunk_start_succ (base rem k : Nat) :
    chunk_start base rem (k + 1)
      = chunk_start base rem k + (base + (if k < rem then 1 else 0)) := by
  unfold chunk_start
  rw [Nat.succ_mul]
  split <;> omega

theorem chunk_start_zero (base rem : Nat) : chunk_start base rem 0 = 0 := by
  simp [chunk_start]

theorem chunk_start_total (total K : Nat) (hK : 1 ≤ K) :
    chunk_start (total / K) (total % K) K = total := by
  unfold chunk_start
  have h : total % K < K := Nat.mod_lt _ (by omega)
  rw [min_eq_right (le_of_lt h)]
  exact Nat.div_add_mod total K

theorem dispatch_fold (base rem : Nat) (hb : 1 ≤ base) (k : Nat) :
    (List.range k).foldl (dispatch_step base rem) (0, [])
      = (chunk_start base rem k, (List.range k).map (chunk_job base rem)) := by
  induction k with
  | zero => simp [chunk_start_zero]
  | succ k ih =>
    rw [List.range_succ, List.foldl_append, ih, List.map_append]
    simp only [List.foldl_cons, List.foldl_nil, List.map_cons, List.map_nil]
    unfold dispatch_step
    simp only []
    rw [if_neg (by omega), chunk_job, chunk_start_succ]
    congr 2
    congr 2
    omega

theorem clampK_eq (N K : Nat) (hN : 2 ≤ N) (hK : K < UINT_MOD) :
    clampK N K = min (max K 1) (N - 1) := by
  unfold clampK
  simp only []
  by_cases h0 : K < 1
  · rw [if_pos h0, max_eq_right (by omega)]
    rw [if_neg (show ¬ 1 > N - 1 by omega), min_eq_left (by omega)]
  · rw [if_neg h0, max_eq_left (by omega)]
    by_cases h1 : K > N - 1
    · rw [if_pos h1, min_eq_right (by omega)]
      exact Nat.mod_eq_of_lt (by omega)
    · rw [if_neg h1, min_eq_left (by omega)]

theorem clampK_bounds (N K : Nat) (hN : 2 ≤ N) (hK : K < UINT_MOD) :
    1 ≤ clampK N K ∧ clampK N K ≤ N - 1 := by
  rw [clampK_eq N K hN hK]
  constructor
  · exact le_min (le_max_right _ _) (by omega)
  · exact min_le_right _ _

theorem clampK_of_range (N K : Nat) (h1 : 1 ≤ K) (h2 : K ≤ N - 1) : clampK N K = K := by
  unfold clampK
  simp only []
  rw [if_neg (show ¬ K < 1 by omega), if_neg (show ¬ K > N - 1 by omega)]

theorem custom_jobs_eq (N K : Nat) (h1 : 1 ≤ K) (h2 : K ≤ N - 1) :
    custom_jobs N K
      = (List.range K).map (chunk_job ((N - 1) / K) ((N - 1) % K)) := by
  unfold custom_jobs dispatch
  rw [clampK_of_range N K h1 h2, dispatch_fold]
  exact (Nat.le_div_iff_mul_le (by omega)).mpr (by omega)

theorem chunk_start_mono (base rem k : Nat) :
    chunk_start base rem k ≤ chunk_start base rem (k + 1) := by
  rw [chunk_start_succ]; omega

theorem chunk_start_lt (base rem k : Nat) (hb : 1 ≤ base) :
    chunk_start base rem k < chunk_start base rem (k + 1) := by
  rw [chunk_start_succ]; omega

theorem chunk_start_le_of_le (base rem : Nat) {j k : Nat} (h : j ≤ k) :
    chunk_start base rem j ≤ chunk_start base rem k := by
  induction k with
  | zero =>
    have : j = 0 := by omega
    rw [this]
  | succ k ih =>
    by_cases hj : j = k + 1
    · rw [hj]
    · exact le_trans (ih (by omega)) (chunk_start_mono base rem k)

theorem combine_chunks (a : List Int) (base rem : Nat) (hb : 1 ≤ base) (k : Nat)
    (hk : chunk_start base rem k ≤ a.length - 1) :
    combine (((List.range k).map (chunk_job base rem)).map (Job.run a)) 0
      = some (maxOf ((diffs64 a).take (chunk_start base rem k))) := by
  induction k with
  | zero => simp [chunk_start_zero, combine, maxOf_nil]
  | succ k ih =>
    have hmono := chunk_start_lt base rem k hb
    have ih1 := ih (by omega)
    rw [List.range_succ, List.map_append, List.map_append, combine_append, ih1]
    simp only [List.map_cons, List.map_nil, Option.some_bind]
    rw [chunk_job, Job.run, w_eq a _ _ hmono hk]
    simp only [combine]
    rw [ite_gt_eq_max, ← maxOf_append, ← List.take_add]
    congr 3
    omega

theorem custom_jobs_clamped (N K : Nat) (hN : 2 ≤ N) (hK : K < UINT_MOD) :
    custom_jobs N K
      = (List.range (clampK N K)).map
          (chunk_job ((N - 1) / clampK N K) ((N - 1) % clampK N K)) := by
  have hb := clampK_bounds N K hN hK
  unfold custom_jobs dispatch
  rw [dispatch_fold]
  exact (Nat.le_div_iff_mul_le (by omega)).mpr (by omega)

/-- The function `custom_adj` returns the maximum of the 64-bit differences of
neighbours, for every requested `K`. -/
theorem custom_adj_eq (a : List Int) (K : Nat) (hN : 2 ≤ a.length) (hK : K < UINT_MOD) :
    custom_adj a K = some (maxOf (diffs64 a)) := by
  have hb := clampK_bounds a.length K hN hK
  have hbase : 1 ≤ (a.length - 1) / clampK a.length K :=
    (Nat.le_div_iff_mul_le (by omega)).mpr (by omega)
  unfold custom_adj
  rw [if_neg (by omega)]
  simp only []
  rw [custom_jobs_clamped a.length K hN hK]
  have htot := chunk_start_total (a.length - 1) (clampK a.length K) hb.1
  rw [combine_chunks a _ _ hbase _ (by rw [htot]), htot]
  rw [List.take_of_length_le (by rw [length_diffs64])]

/-! ## The reference value as a maximum -/

theorem absDiffs_nonneg {a : List Int} {x : Int} (h : x ∈ absDiffs a) : 0 ≤ x := by
  unfold absDiffs at h
  rcases List.mem_map.mp h with ⟨d, _, hd⟩
  rw [← hd]
  exact abs_nonneg d

theorem maxOf_mem_of_nonneg (l : List Int) (hne : l ≠ []) (h : ∀ x ∈ l, 0 ≤ x) :
    maxOf l ∈ l := by
  rcases maxOf_mem l with h0 | h1
  · cases l with
    | nil => exact absurd rfl hne
    | cons y r =>
      have hy : y ≤ maxOf (y :: r) := le_maxOf (List.mem_cons_self _ _)
      have hy0 : 0 ≤ y := h y (List.mem_cons_self _ _)
      have : y = maxOf (y :: r) := by omega
      rw [← this]
      exact List.mem_cons_self _ _
  · exact h1

theorem maxAbsDiff_ge (a : List Int) (i : Nat) (h1 : 1 ≤ i) (h2 : i < a.length) :
    |a.getD i 0 - a.getD (i - 1) 0| ≤ maxAbsDiff a := by
  have e1 : a[i - 1]? = some (a.getD (i - 1) 0) := by
    rw [List.getD_eq_getElem _ _ (by omega), List.getElem?_eq_getElem]
  have e2 : a[i - 1 + 1]? = some (a.getD i 0) := by
    rw [Nat.sub_add_cancel h1, List.getD_eq_getElem _ _ h2, List.getElem?_eq_getElem]
  exact le_maxOf (List.getElem?_mem (absDiffs_getElem? a (i - 1) _ _ e1 e2))

theorem maxAbsDiff_attained (a : List Int) (hN : 2 ≤ a.length) :
    ∃ i, 1 ≤ i ∧ i < a.length ∧ maxAbsDiff a = |a.getD i 0 - a.getD (i - 1) 0| := by
  have hne : absDiffs a ≠ [] := by
    intro h
    have := length_absDiffs a
    rw [h] at this
    simp at this
    omega
  have hmem := maxOf_mem_of_nonneg (absDiffs a) hne (fun x hx => absDiffs_nonneg hx)
  rcases List.mem_iff_getElem?.mp hmem with ⟨j, hj⟩
  have hjlt : j < (absDiffs a).length := by
    rcases List.getElem?_eq_some.mp hj with ⟨h, _⟩
    exact h
  rw [length_absDiffs] at hjlt
  have e1 : a[j]? = some (a.getD j 0) := by
    rw [List.getD_eq_getElem _ _ (by omega), List.getElem?_eq_getElem]
  have e2 : a[j + 1]? = some (a.getD (j + 1) 0) := by
    rw [List.getD_eq_getElem _ _ (by omega), List.getElem?_eq_getElem]
  have e3 := absDiffs_getElem? a j _ _ e1 e2
  rw [hj] at e3
  refine ⟨j + 1, by omega, by omega, ?_⟩
  rw [Nat.add_sub_cancel]
  exact Option.some.inj e3

/-! ## The sequential baseline -/

theorem adjacent_difference_go_eq :
    ∀ (x : Int) (rest : List Int),
      adjacent_difference_go x rest = (adjDiffs (x :: rest)).map wrap32
  | _, [] => rfl
  | x, y :: rest => by
    rw [adjacent_difference_go, adjacent_difference_go_eq y rest]
    rfl

theorem foldl_lib_step (l : List Int) :
    ∀ (m : Int), 0 ≤ m → l.foldl lib_step m = max m (maxOf (l.map llabs)) := by
  induction l with
  | nil =>
    intro m hm
    simp [maxOf_nil, max_eq_left hm]
  | cons x l ih =>
    intro m hm
    rw [List.foldl_cons, lib_step, ite_gt_eq_max, ih _ (le_max_of_le_left hm), List.map_cons, maxOf_cons, max_assoc]

/-- The function `lib_adj` returns the maximum of the absolute values of the
wrapped 32-bit differences. -/
theorem lib_adj_eq : ∀ (a : List Int),
    lib_adj a = maxOf ((adjDiffs a).map (fun d => llabs (wrap32 d)))
  | [] => rfl
  | [_] => rfl
  | x :: y :: rest => by
    unfold lib_adj
    rw [if_neg (by simp)]
    simp only [adjacent_difference, List.drop_succ_cons, List.drop_zero]
    rw [adjacent_difference_go_eq, foldl_lib_step _ 0 (le_refl 0),
      max_eq_right (maxOf_nonneg _), List.map_map]
    rfl

/-- When every adjacent difference fits in an `int`, `lib_adj` is exact. -/
theorem lib_adj_exact (a : List Int) (h : ∀ d ∈ adjDiffs a, isInt32 d) :
    lib_adj a = maxAbsDiff a := by
  rw [lib_adj_eq, maxAbsDiff, absDiffs]
  congr 1
  apply List.map_congr_left
  intro d hd
  rw [wrap32_of_range (h d hd), llabs_of_int32 (h d hd)]

/-! ## The transform-then-reduce kernel -/

theorem pol_op_eq_max (x y : Int) : pol_op x y = max x y := by
  unfold pol_op
  split
  · rw [max_eq_left (by omega)]
  · rw [max_eq_right (by omega)]

theorem eval_mem (d : List Int) (i0 : Int) (t : Sched) :
    Sched.eval d i0 t ∈ t.operands.map (operand_val d i0) := by
  induction t with
  | init => simp [Sched.eval, Sched.operands, operand_val]
  | elem i => simp [Sched.eval, Sched.operands, operand_val]
  | node l r ihl ihr =>
    rw [Sched.eval, pol_op_eq_max, Sched.operands, List.map_append]
    rcases max_choice (Sched.eval d i0 l) (Sched.eval d i0 r) with h | h
    · rw [h]; exact List.mem_append_left _ ihl
    · rw [h]; exact List.mem_append_right _ ihr

theorem eval_ge (d : List Int) (i0 : Int) (t : Sched) :
    ∀ x ∈ t.operands.map (operand_val d i0), x ≤ Sched.eval d i0 t := by
  induction t with
  | init => simp [Sched.eval, Sched.operands, operand_val]
  | elem i => simp [Sched.eval, Sched.operands, operand_val]
  | node l r ihl ihr =>
    intro x hx
    rw [Sched.eval, pol_op_eq_max]
    rw [Sched.operands, List.map_append] at hx
    rcases List.mem_append.mp hx with h | h
    · exact le_max_of_le_left (ihl x h)
    · exact le_max_of_le_right (ihr x h)

theorem map_getD_range (d : List Int) :
    (List.range d.length).map (fun i => d.getD i 0) = d := by
  apply List.ext_getElem
  · simp
  · intro i h1 h2
    simp [List.getElem?_eq_getElem h2]

theorem operands_perm (d : List Int) (i0 : Int) (t : Sched)
    (ht : t.admissible d.length) :
    List.Perm (t.operands.map (operand_val d i0)) (i0 :: d) := by
  have h := List.Perm.map (operand_val d i0) ht
  rw [List.map_cons, List.map_map] at h
  have e : (operand_val d i0 ∘ some) = (fun i => d.getD i 0) := rfl
  rw [e, map_getD_range] at h
  exact h

/-- Every admissible grouping of the reduce call yields the maximum of the
buffer (`0` for an empty buffer). -/
theorem eval_eq_maxOf (d : List Int) (t : Sched) (ht : t.admissible d.length) :
    Sched.eval d 0 t = maxOf d := by
  have hp := operands_perm d 0 t ht
  apply le_antisymm
  · have hm := (List.Perm.mem_iff hp).mp (eval_mem d 0 t)
    rcases List.mem_cons.mp hm with h | h
    · rw [h]; exact maxOf_nonneg d
    · exact le_maxOf h
  · apply eval_ge d 0 t
    apply (List.Perm.mem_iff hp).mpr
    rcases maxOf_mem d with h | h
    · rw [h]; exact List.mem_cons_self _ _
    · exact List.mem_cons_of_mem _ h

theorem getD_replicate_zero (n i : Nat) : (List.replicate n (0 : Int)).getD i 0 = 0 := by
  rw [List.getD_eq_getElem?_getD, List.getElem?_replicate]
  split <;> rfl

theorem eval_zeros (n : Nat) (t : Sched) : Sched.eval (List.replicate n 0) 0 t = 0 := by
  induction t with
  | init => rfl
  | elem i => exact getD_replicate_zero n i
  | node l r ihl ihr =>
    rw [Sched.eval, ihl, ihr]
    rfl

/-- The function `pol_adj` returns `0` for every vector, every policy and every
grouping: below two elements by its first test, otherwise because the reduce call
runs over a buffer of zeros. -/
theorem pol_adj_eq (a : List Int) (p : Exec) (t : Sched) : pol_adj a p t = 0 := by
  unfold pol_adj
  split
  · rfl
  · simp only []
    rw [pol_transform_eq]
    exact eval_zeros _ t

theorem leftFold_operands_perm (n : Nat) :
    List.Perm (Sched.leftFold n).operands (none :: (List.range n).map some) := by
  induction n with
  | zero => simp [Sched.leftFold, Sched.operands]
  | succ n ih =>
    rw [Sched.leftFold, Sched.operands, Sched.operands, List.range_succ, List.map_append,
      ← List.cons_append]
    exact List.Perm.append ih (List.Perm.refl _)

/-- The left-to-right grouping is admissible. -/
theorem leftFold_admissible (n : Nat) : (Sched.leftFold n).admissible n :=
  leftFold_operands_perm n

/-! ## The chunk ranges -/

theorem chunk_ranges_eq (N K : Nat) (h1 : 1 ≤ K) (h2 : K ≤ N - 1) :
    chunk_ranges N K
      = (List.range K).map (chunk_range ((N - 1) / K) ((N - 1) % K)) := by
  unfold chunk_ranges
  rw [custom_jobs_eq N K h1 h2, List.filterMap_map]
  exact congrFun (List.filterMap_eq_map _) _

theorem getD_chunk_range (base rem K k : Nat) (hk : k < K) :
    ((List.range K).map (chunk_range base rem)).getD k (0, 0) = chunk_range base rem k := by
  rw [List.getD_eq_getElem _ _ (by simpa using hk)]
  simp

theorem chunk_size (base rem k : Nat) :
    chunk_start base rem (k + 1) - chunk_start base rem k
      = base + (if k < rem then 1 else 0) := by
  rw [chunk_start_succ]; omega

theorem sum_chunk_sizes (base rem k : Nat) :
    (((List.range k).map (chunk_range base rem)).map (fun r => r.2 - r.1)).sum
      = chunk_start base rem k := by
  induction k with
  | zero => simp [chunk_start_zero]
  | succ k ih =>
    rw [List.range_succ, List.map_append, List.map_append, List.sum_append, ih]
    have := chunk_start_mono base rem k
    simp only [List.map_cons, List.map_nil, List.sum_cons, List.sum_nil, chunk_range]
    omega

theorem flatten_chunk_ranges (base rem k : Nat) :
    (((List.range k).map (chunk_range base rem)).map
        (fun r => List.range' r.1 (r.2 - r.1))).flatten
      = List.range (chunk_start base rem k) := by
  induction k with
  | zero => simp [chunk_start_zero]
  | succ k ih =>
    rw [List.range_succ, List.map_append, List.map_append, List.flatten_append, ih]
    have hm := chunk_start_mono base rem k
    simp only [List.map_cons, List.map_nil, List.flatten_cons, List.flatten_nil,
      List.append_nil, chunk_range]
    rw [List.range_eq_range', List.range_eq_range']
    have h := List.range'_append_1 0 (chunk_start base rem k)
      (chunk_start base rem (k + 1) - chunk_start base rem k)
    rw [Nat.zero_add] at h
    rw [h]
    congr 1
    omega

theorem trial_rows_config (hw : Nat) (gen : Nat → Nat → List Int)
    (sched : Exec → List Int → Sched) (n ti : Nat) (hn : 32 ≤ n) :
    (trial_rows hw gen sched n ti).map Row.config = expected_trial n ti := by
  unfold trial_rows expected_trial KV
  simp only [custom_rows, List.map_append, List.map_cons, List.map_nil, Row.config,
    seed_base, List.cons_append, List.nil_append]
  rw [if_neg (by omega), if_neg (by omega), if_neg (by omega), if_neg (by omega),
    if_neg (by omega), if_neg (by omega)]
  rfl

/-! ## Constant and short sequences -/

theorem lib_adj_short (a : List Int) (h : a.length < 2) : lib_adj a = 0 := by
  unfold lib_adj
  rw [if_pos h]

theorem pol_adj_short (a : List Int) (p : Exec) (t : Sched) (h : a.length < 2) :
    pol_adj a p t = 0 := by
  unfold pol_adj
  rw [if_pos h]

theorem custom_adj_short (a : List Int) (K : Nat) (h : a.length < 2) :
    custom_adj a K = some 0 := by
  unfold custom_adj
  rw [if_pos h]

/-! ## The claims -/

/-- C1 (fails on the code): on `[-2, 2147483647]`, a sequence of two `int`
values, `custom_adj` with `K = 1` returns `2147483649` while `lib_adj` returns
`2147483647`, because the `int` subtraction of `std::adjacent_difference`
wraps. -/
theorem custom_adj_differs_from_lib_adj :
    isInt32 (-2) ∧ isInt32 2147483647
      ∧ custom_adj [-2, 2147483647] 1 = some 2147483649
      ∧ lib_adj [-2, 2147483647] = 2147483647 := by
  decide

/-- C2: for a sequence of `int` values of length at least 2 and any `unsigned`
`K`, `custom_adj` returns the maximum of `|a[i] - a[i-1]|` over `1 ≤ i < N` in
unbounded integers: it bounds every such difference and equals one of them. -/
theorem custom_adj_is_max (a : List Int) (K : Nat) (hN : 2 ≤ a.length)
    (hK : K < UINT_MOD) (ha : ∀ x ∈ a, isInt32 x) :
    custom_adj a K = some (maxAbsDiff a)
      ∧ (∀ i, 1 ≤ i → i < a.length → |a.getD i 0 - a.getD (i - 1) 0| ≤ maxAbsDiff a)
      ∧ (∃ i, 1 ≤ i ∧ i < a.length ∧ maxAbsDiff a = |a.getD i 0 - a.getD (i - 1) 0|) := by
  refine ⟨?_, maxAbsDiff_ge a, maxAbsDiff_attained a hN⟩
  rw [custom_adj_eq a K hN hK, diffs64_eq_absDiffs a ha]
  rfl

/-- Witness of C2 on `[3, 10, 2, 2, 20]` with `K = 7`. -/
theorem custom_adj_is_max_witness :
    custom_adj [3, 10, 2, 2, 20] 7 = some (maxAbsDiff [3, 10, 2, 2, 20])
      ∧ (∀ i, 1 ≤ i → i < [3, 10, 2, 2, 20].length →
          |[3, 10, 2, 2, 20].getD i 0 - [3, 10, 2, 2, 20].getD (i - 1) 0|
            ≤ maxAbsDiff [3, 10, 2, 2, 20])
      ∧ (∃ i, 1 ≤ i ∧ i < [3, 10, 2, 2, 20].length
          ∧ maxAbsDiff [3, 10, 2, 2, 20]
            = |[3, 10, 2, 2, 20].getD i 0 - [3, 10, 2, 2, 20].getD (i - 1) 0|) :=
  custom_adj_is_max [3, 10, 2, 2, 20] 7 (by decide) (by decide) (by decide)

/-- C3 (fails on the code): on `[-2, 2147483647]` the true maximum absolute
adjacent difference is `2147483649`, and `lib_adj` returns `2147483647`. -/
theorem lib_adj_overflow :
    isInt32 (-2) ∧ isInt32 2147483647
      ∧ maxAbsDiff [-2, 2147483647] = 2147483649
      ∧ lib_adj [-2, 2147483647] = 2147483647 := by
  decide

/-- C5: for `N ≥ 2` and `1 ≤ K ≤ N - 1` the loop of `custom_adj` builds `K`
asynchronous chunks and nothing else; the first starts at `0`, each ends where the
next starts, the last ends at `N - 1`, every chunk is non-empty, the sizes sum to
`N - 1`, any two sizes differ by at most `1`, and the pair indices of the chunks,
listed chunk after chunk, are exactly `0, 1, …, N - 2`. -/
theorem chunk_partition (N K : Nat) (_hN : 2 ≤ N) (hK1 : 1 ≤ K) (hK2 : K ≤ N - 1) :
    custom_jobs N K = (chunk_ranges N K).map (fun r => Job.async r.1 r.2)
      ∧ (chunk_ranges N K).length = K
      ∧ ((chunk_ranges N K).getD 0 (0, 0)).1 = 0
      ∧ (∀ k, k + 1 < K →
          ((chunk_ranges N K).getD k (0, 0)).2 = ((chunk_ranges N K).getD (k + 1) (0, 0)).1)
      ∧ ((chunk_ranges N K).getD (K - 1) (0, 0)).2 = N - 1
      ∧ (∀ r ∈ chunk_ranges N K, r.1 < r.2)
      ∧ ((chunk_ranges N K).map (fun r => r.2 - r.1)).sum = N - 1
      ∧ (∀ r ∈ chunk_ranges N K, ∀ q ∈ chunk_ranges N K, r.2 - r.1 ≤ q.2 - q.1 + 1)
      ∧ ((chunk_ranges N K).map (fun r => List.range' r.1 (r.2 - r.1))).flatten
          = List.range (N - 1) := by
  have hbase : 1 ≤ (N - 1) / K := (Nat.le_div_iff_mul_le (by omega)).mpr (by omega)
  have htot := chunk_start_total (N - 1) K hK1
  rw [chunk_ranges_eq N K hK1 hK2]
  refine ⟨?_, ?_, ?_, ?_, ?_, ?_, ?_, ?_, ?_⟩
  · rw [custom_jobs_eq N K hK1 hK2, List.map_map]
    rfl
  · simp
  · rw [getD_chunk_range _ _ _ _ (by omega)]
    exact chunk_start_zero _ _
  · intro k hk
    rw [getD_chunk_range _ _ _ _ (by omega), getD_chunk_range _ _ _ _ hk]
    rfl
  · rw [getD_chunk_range _ _ _ _ (by omega), chunk_range, Nat.sub_add_cancel hK1]
    exact htot
  · intro r hr
    rcases List.mem_map.mp hr with ⟨k, _, hk⟩
    rw [← hk]
    exact chunk_start_lt _ _ k hbase
  · rw [sum_chunk_sizes, htot]
  · intro r hr q hq
    rcases List.mem_map.mp hr with ⟨k, _, hk⟩
    rcases List.mem_map.mp hq with ⟨j, _, hj⟩
    rw [← hk, ← hj]
    simp only [chunk_range]
    rw [chunk_size, chunk_size]
    split <;> split <;> omega
  · rw [flatten_chunk_ranges, htot]

/-- Witness of C5 for `N = 11` and `K = 3`. -/
theorem chunk_partition_witness :
    (2 ≤ 11 ∧ 1 ≤ 3 ∧ 3 ≤ 11 - 1)
      ∧ custom_jobs 11 3 = (chunk_ranges 11 3).map (fun r => Job.async r.1 r.2)
      ∧ (chunk_ranges 11 3).length = 3
      ∧ ((chunk_ranges 11 3).getD 0 (0, 0)).1 = 0
      ∧ (∀ k, k + 1 < 3 →
          ((chunk_ranges 11 3).getD k (0, 0)).2 = ((chunk_ranges 11 3).getD (k + 1) (0, 0)).1)
      ∧ ((chunk_ranges 11 3).getD (3 - 1) (0, 0)).2 = 11 - 1
      ∧ (∀ r ∈ chunk_ranges 11 3, r.1 < r.2)
      ∧ ((chunk_ranges 11 3).map (fun r => r.2 - r.1)).sum = 11 - 1
      ∧ (∀ r ∈ chunk_ranges 11 3, ∀ q ∈ chunk_ranges 11 3, r.2 - r.1 ≤ q.2 - q.1 + 1)
      ∧ ((chunk_ranges 11 3).map (fun r => List.range' r.1 (r.2 - r.1))).flatten
          = List.range (11 - 1) :=
  ⟨by decide, chunk_partition 11 3 (by decide) (by decide) (by decide)⟩

theorem clampK_zero (N : Nat) : clampK N 0 = clampK N 1 := rfl

theorem clampK_above (N K : Nat) (hN : 2 ≤ N) (h1 : N - 1 < K) (h2 : K < UINT_MOD) :
    clampK N K = clampK N (N - 1) := by
  rw [clampK_eq N K hN h2, clampK_of_range N (N - 1) (by omega) (le_refl _)]
  rw [max_eq_left (by omega), min_eq_right (by omega)]

theorem custom_adj_congr (a : List Int) (K J : Nat)
    (h : custom_jobs a.length K = custom_jobs a.length J) :
    custom_adj a K = custom_adj a J := by
  unfold custom_adj
  simp only [h]

/-- C6: for a sequence of length `N ≥ 2`, `custom_adj` with `K = 0` builds the same
jobs and returns the same result as with `K = 1`; with any `unsigned` `K > N - 1`
it builds the same jobs and returns the same result as with `K = N - 1`; and for
every `unsigned` `K` it returns a value. -/
theorem custom_adj_clamping (a : List Int) (hN : 2 ≤ a.length) :
    (custom_jobs a.length 0 = custom_jobs a.length 1 ∧ custom_adj a 0 = custom_adj a 1)
      ∧ (∀ K, a.length - 1 < K → K < UINT_MOD →
          custom_jobs a.length K = custom_jobs a.length (a.length - 1)
            ∧ custom_adj a K = custom_adj a (a.length - 1))
      ∧ (∀ K, K < UINT_MOD → (custom_adj a K).isSome = true) := by
  refine ⟨⟨?_, ?_⟩, ?_, ?_⟩
  · unfold custom_jobs
    rw [clampK_zero]
  · apply custom_adj_congr
    unfold custom_jobs
    rw [clampK_zero]
  · intro K h1 h2
    constructor
    · unfold custom_jobs
      rw [clampK_above _ K hN h1 h2]
    · apply custom_adj_congr
      unfold custom_jobs
      rw [clampK_above _ K hN h1 h2]
  · intro K hK
    rw [custom_adj_eq a K hN hK]
    rfl

/-- Witness of C6 on `[3, 10, 2, 2, 20]`. -/
theorem custom_adj_clamping_witness :
    2 ≤ [3, 10, 2, 2, 20].length
      ∧ (custom_jobs [3, 10, 2, 2, 20].length 0 = custom_jobs [3, 10, 2, 2, 20].length 1
          ∧ custom_adj [3, 10, 2, 2, 20] 0 = custom_adj [3, 10, 2, 2, 20] 1)
      ∧ (∀ K, [3, 10, 2, 2, 20].length - 1 < K → K < UINT_MOD →
          custom_jobs [3, 10, 2, 2, 20].length K
              = custom_jobs [3, 10, 2, 2, 20].length ([3, 10, 2, 2, 20].length - 1)
            ∧ custom_adj [3, 10, 2, 2, 20] K
              = custom_adj [3, 10, 2, 2, 20] ([3, 10, 2, 2, 20].length - 1))
      ∧ (∀ K, K < UINT_MOD → (custom_adj [3, 10, 2, 2, 20] K).isSome = true) :=
  ⟨by decide, custom_adj_clamping [3, 10, 2, 2, 20] (by decide)⟩

/-- C7: on a sequence of length 0 or 1, `lib_adj`, `pol_adj` under every policy and
every grouping, and `custom_adj` for every `K` return `0`; the length test comes
first, so `N - 1` is never computed and no element is read. -/
theorem short_sequence_zero (a : List Int) (h : a.length < 2) :
    lib_adj a = 0
      ∧ (∀ (p : Exec) (t : Sched), pol_adj a p t = 0)
      ∧ (∀ K : Nat, custom_adj a K = some 0) := by
  exact ⟨lib_adj_short a h, fun p t => pol_adj_short a p t h,
    fun K => custom_adj_short a K h⟩

/-- Witness of C7 on `[5]`. -/
theorem short_sequence_zero_witness :
    [5].length < 2
      ∧ lib_adj [5] = 0
      ∧ (∀ (p : Exec) (t : Sched), pol_adj [5] p t = 0)
      ∧ (∀ K : Nat, custom_adj [5] K = some 0) :=
  ⟨by decide, short_sequence_zero [5] (by decide)⟩

/-- C10: with the compiled-in configuration the log of `main` holds, for each size
of `[1000, 10000, 100000, 1000000]` in order and each trial `0..4` (seed
`1111 + ti`), the ten records library/none, transform+reduce/seq, /par,
/par_unseq (with `K = 0`) and custom_split/custom for `K = 1, 2, 4, 8, 16, 32`;
the break on `K > n` never fires and the log has exactly 200 records. -/
theorem main_rows_configs (detected : Nat) (gen : Nat → Nat → List Int)
    (sched : Exec → List Int → Sched) :
    (main_rows detected gen sched).map Row.config = expected_configs
      ∧ (main_rows detected gen sched).length = 200 := by
  have h : (main_rows detected gen sched).map Row.config = expected_configs := by
    unfold main_rows expected_configs S T
    simp only [List.flatMap_cons, List.flatMap_nil, List.map_append, List.append_nil,
      List.range_succ, List.range_zero, List.nil_append, List.cons_append,
      List.flatMap_append, List.append_assoc, List.map_nil]
    simp only [trial_rows_config _ _ _ _ _ (show 32 ≤ 1000 by decide),
      trial_rows_config _ _ _ _ _ (show 32 ≤ 10000 by decide),
      trial_rows_config _ _ _ _ _ (show 32 ≤ 100000 by decide),
      trial_rows_config _ _ _ _ _ (show 32 ≤ 1000000 by decide)]
  refine ⟨h, ?_⟩
  have hl := congrArg List.length h
  rw [List.length_map] at hl
  rw [hl]
  rfl

/-! ## The join -/

theorem getD_set_self (l : List Bool) (k : Nat) (h : k < l.length) :
    (l.set k true).getD k false = true := by
  rw [List.getD_eq_getElem?_getD, List.getElem?_set_self h]
  rfl

theorem getD_set_of_true (l : List Bool) (k j : Nat) (h : l.getD j false = true) :
    (l.set k true).getD j false = true := by
  by_cases hkj : k = j
  · have hj : j < l.length := by
      by_contra hn
      rw [List.getD_eq_getElem?_getD, List.getElem?_eq_none (by omega)] at h
      cases h
    rw [hkj]
    exact getD_set_self l j hj
  · rw [List.getD_eq_getElem?_getD, List.getElem?_set_ne hkj, ← List.getD_eq_getElem?_getD]
    exact h

theorem join_init_inv (a : List Int) (jobs : List Job) :
    JoinInv a jobs (join_init jobs) := by
  refine ⟨?_, ?_, ?_, ?_⟩
  · simp [join_init]
  · simp [join_init]
  · intro k hk
    simp [join_init] at hk
  · simp [join_init, combine]

theorem join_step_inv (a : List Int) (jobs : List Job) (st st1 : JoinState)
    (ev : JoinEvent) (hinv : JoinInv a jobs st) (h : join_step a jobs st ev = some st1) :
    JoinInv a jobs st1 := by
  obtain ⟨hlen, hnext, hready, hg⟩ := hinv
  cases ev with
  | finish k =>
    simp only [join_step] at h
    split at h
    · split at h
      · have e := Option.some.inj h
        rw [← e]
        refine ⟨?_, hnext, ?_, hg⟩
        · simp only [List.length_set]
          exact hlen
        · intro j hj
          exact getD_set_of_true _ _ _ (hready j hj)
      · cases h
    · cases h
  | get =>
    simp only [join_step] at h
    split at h
    · cases h
    · rename_i j hj
      have hlt : st.next < jobs.length := by
        rcases List.getElem?_eq_some.mp hj with ⟨h1, _⟩
        exact h1
      split at h
      · split at h
        · rename_i v hv
          have e := Option.some.inj h
          rw [← e]
          refine ⟨?_, ?_, ?_, ?_⟩
          · simp only [List.length_set]
            exact hlen
          · exact hlt
          · intro i hi
            have hi2 : i < st.next + 1 := hi
            by_cases hin : i = st.next
            · rw [hin]
              exact getD_set_self _ _ (by omega)
            · exact getD_set_of_true _ _ _ (hready i (by omega))
          · simp only []
            rw [List.take_succ, hj, List.map_append, combine_append, hg]
            simp [combine, hv]
        · cases h
      · cases h

theorem join_run_inv (a : List Int) (jobs : List Job) (evs : List JoinEvent) :
    ∀ (st st1 : JoinState), JoinInv a jobs st → join_run a jobs st evs = some st1 →
      JoinInv a jobs st1 := by
  induction evs with
  | nil =>
    intro st st1 hinv h
    rw [join_run] at h
    rw [← Option.some.inj h]
    exact hinv
  | cons ev rest ih =>
    intro st st1 hinv h
    rw [join_run] at h
    split at h
    · cases h
    · rename_i st2 hst2
      exact ih st2 st1 (join_step_inv a jobs st st2 ev hinv hst2) h

theorem getD_set_ne (l : List Bool) (k i : Nat) (d : Bool) (h : k ≠ i) :
    (l.set k true).getD i d = l.getD i d := by
  rw [List.getD_eq_getElem?_getD, List.getElem?_set_ne h, ← List.getD_eq_getElem?_getD]

theorem join_run_append (a : List Int) (jobs : List Job) (e1 e2 : List JoinEvent) :
    ∀ (st : JoinState),
      join_run a jobs st (e1 ++ e2) = (join_run a jobs st e1).bind (fun s1 => join_run a jobs s1 e2) := by
  induction e1 with
  | nil => intro st; rfl
  | cons ev rest ih =>
    intro st
    rw [List.cons_append, join_run, join_run]
    cases hstep : join_step a jobs st ev with
    | none => rfl
    | some s1 => exact ih s1

theorem join_turn_step (a : List Int) (jobs : List Job) (st : JoinState) (k : Nat)
    (s e : Nat) (v : Int) (hjob : jobs[k]? = some (Job.async s e)) (hv : w a s e = some v)
    (hnext : st.next = k) (hlen : st.ready.length = jobs.length)
    (hfalse : ∀ i, k ≤ i → i < jobs.length → st.ready.getD i true = false) :
    ∃ st1, join_run a jobs st [JoinEvent.finish k, JoinEvent.get] = some st1
      ∧ st1.next = k + 1 ∧ st1.ready.length = jobs.length
      ∧ (∀ i, k + 1 ≤ i → i < jobs.length → st1.ready.getD i true = false) := by
  have hk : k < jobs.length := by
    rcases List.getElem?_eq_some.mp hjob with ⟨h1, _⟩
    exact h1
  have h1 : join_step a jobs st (JoinEvent.finish k)
      = some { ready := st.ready.set k true, next := st.next, g := st.g } := by
    simp only [join_step, hjob]
    rw [if_pos (hfalse k (le_refl k) hk)]
  have h2 : join_step a jobs { ready := st.ready.set k true, next := st.next, g := st.g }
      JoinEvent.get
      = some { ready := (st.ready.set k true).set k true, next := k + 1,
               g := if v > st.g then v else st.g } := by
    simp only [join_step, hnext, hjob]
    rw [if_pos (getD_set_self _ _ (by omega))]
    simp only [Job.run, hv]
  refine ⟨{ ready := (st.ready.set k true).set k true, next := k + 1,
            g := if v > st.g then v else st.g }, ?_, rfl, ?_, ?_⟩
  · rw [join_run, h1]
    simp only []
    rw [join_run, h2]
    rfl
  · simp only [List.length_set]
    exact hlen
  · intro i hi1 hi2
    simp only []
    rw [getD_set_ne _ _ _ _ (by omega), getD_set_ne _ _ _ _ (by omega)]
    exact hfalse i (by omega) hi2

theorem join_in_turn_succ (k : Nat) :
    join_in_turn (k + 1) = join_in_turn k ++ [JoinEvent.finish k, JoinEvent.get] := by
  unfold join_in_turn
  rw [List.range_succ, List.flatMap_append]
  simp

theorem join_in_turn_runs (a : List Int) (jobs : List Job)
    (hall : ∀ k, k < jobs.length → ∃ s e v, jobs[k]? = some (Job.async s e) ∧ w a s e = some v) :
    ∀ k, k ≤ jobs.length →
      ∃ st, join_run a jobs (join_init jobs) (join_in_turn k) = some st
        ∧ st.next = k ∧ st.ready.length = jobs.length
        ∧ (∀ i, k ≤ i → i < jobs.length → st.ready.getD i true = false) := by
  intro k
  induction k with
  | zero =>
    intro _
    refine ⟨join_init jobs, rfl, rfl, by simp [join_init], ?_⟩
    intro i _ hi
    simp [join_init, hi]
  | succ k ih =>
    intro hk
    obtain ⟨st, hrun, hnext, hlen, hfalse⟩ := ih (by omega)
    obtain ⟨s, e, v, hjob, hv⟩ := hall k (by omega)
    obtain ⟨st1, hrun1, h1, h2, h3⟩ :=
      join_turn_step a jobs st k s e v hjob hv hnext hlen hfalse
    refine ⟨st1, ?_, h1, h2, h3⟩
    rw [join_in_turn_succ, join_run_append, hrun]
    exact hrun1

theorem custom_jobs_getElem? (N K k : Nat) (hN : 2 ≤ N) (hK : K < UINT_MOD)
    (hk : k < clampK N K) :
    (custom_jobs N K)[k]?
      = some (chunk_job ((N - 1) / clampK N K) ((N - 1) % clampK N K) k) := by
  rw [custom_jobs_clamped N K hN hK]
  simp [hk]

theorem length_custom_jobs (N K : Nat) (hN : 2 ≤ N) (hK : K < UINT_MOD) :
    (custom_jobs N K).length = clampK N K := by
  rw [custom_jobs_clamped N K hN hK]
  simp

theorem chunk_bounds (N K k : Nat) (hN : 2 ≤ N) (hK : K < UINT_MOD) (hk : k < clampK N K) :
    chunk_start ((N - 1) / clampK N K) ((N - 1) % clampK N K) k
        < chunk_start ((N - 1) / clampK N K) ((N - 1) % clampK N K) (k + 1)
      ∧ chunk_start ((N - 1) / clampK N K) ((N - 1) % clampK N K) (k + 1) ≤ N - 1 := by
  have hb := clampK_bounds N K hN hK
  have hbase : 1 ≤ (N - 1) / clampK N K :=
    (Nat.le_div_iff_mul_le (by omega)).mpr (by omega)
  constructor
  · exact chunk_start_lt _ _ k hbase
  · have h := chunk_start_le_of_le ((N - 1) / clampK N K) ((N - 1) % clampK N K)
      (show k + 1 ≤ clampK N K by omega)
    rw [chunk_start_total (N - 1) (clampK N K) hb.1] at h
    exact h

theorem custom_jobs_run (a : List Int) (K k : Nat) (hN : 2 ≤ a.length) (hK : K < UINT_MOD)
    (hk : k < (custom_jobs a.length K).length) :
    ∃ s e v, (custom_jobs a.length K)[k]? = some (Job.async s e) ∧ w a s e = some v := by
  rw [length_custom_jobs a.length K hN hK] at hk
  have hb := chunk_bounds a.length K k hN hK hk
  exact ⟨_, _, _, custom_jobs_getElem? a.length K k hN hK hk, w_eq a _ _ hb.1 hb.2⟩

/-! ## Element reads -/

theorem w_loop_reads_eq :
    ∀ (cnt i : Nat), w_loop_reads cnt i = (List.range' i cnt).map (fun j => (j - 1, j))
  | 0, _ => rfl
  | cnt + 1, i => by
    rw [w_loop_reads, w_loop_reads_eq cnt (i + 1), List.range'_succ, List.map_cons]

theorem w_reads_eq (s e : Nat) :
    w_reads s e = (List.range' (s + 1) (e - s)).map (fun j => (j - 1, j)) := by
  unfold w_reads
  split
  · rename_i h
    have h0 : e - s = 0 := by omega
    rw [h0]
    rfl
  · exact w_loop_reads_eq _ _

theorem mem_w_reads {s e : Nat} {r : Nat × Nat} (h : r ∈ w_reads s e) :
    r.1 + 1 = r.2 ∧ s + 1 ≤ r.2 ∧ r.2 ≤ e := by
  rw [w_reads_eq] at h
  rcases List.mem_map.mp h with ⟨j, hj, hr⟩
  rw [List.mem_range'_1] at hj
  rw [← hr]
  simp only []
  omega

/-- The worker loop delivers a value exactly when every index it reads lies
inside the vector. -/
theorem w_loop_isSome (a : List Int) :
    ∀ (cnt i : Nat) (m : Int),
      (w_loop a cnt i m).isSome = true
        ↔ ∀ r ∈ w_loop_reads cnt i, r.1 < a.length ∧ r.2 < a.length
  | 0, i, m => by simp [w_loop, w_loop_reads]
  | cnt + 1, i, m => by
    rw [w_loop, w_loop_reads]
    by_cases h1 : i < a.length
    · by_cases h2 : i - 1 < a.length
      · rw [List.getElem?_eq_getElem h1, List.getElem?_eq_getElem h2]
        simp only []
        rw [w_loop_isSome a cnt (i + 1)]
        constructor
        · intro h r hr
          rcases List.mem_cons.mp hr with h3 | h3
          · rw [h3]; exact ⟨h2, h1⟩
          · exact h r h3
        · intro h r hr
          exact h r (List.mem_cons_of_mem _ hr)
      · rw [List.getElem?_eq_getElem h1, List.getElem?_eq_none (by omega)]
        simp only [Option.isSome_none, Bool.false_eq_true, false_iff]
        intro h
        exact h2 (h (i - 1, i) (List.mem_cons_self _ _)).1
    · rw [List.getElem?_eq_none (by omega)]
      simp only [Option.isSome_none, Bool.false_eq_true, false_iff]
      intro h
      exact h1 (h (i - 1, i) (List.mem_cons_self _ _)).2

theorem custom_jobs_mem (N K : Nat) (hN : 2 ≤ N) (hK : K < UINT_MOD) (j : Job)
    (hj : j ∈ custom_jobs N K) :
    ∃ s e, j = Job.async s e ∧ s < e ∧ e ≤ N - 1 := by
  rw [custom_jobs_clamped N K hN hK] at hj
  rcases List.mem_map.mp hj with ⟨k, hk, hjk⟩
  rw [List.mem_range] at hk
  have hb := chunk_bounds N K k hN hK hk
  exact ⟨_, _, hjk.symm, hb.1, hb.2⟩

/-! ## Bounds on the 64-bit values -/

theorem maxOf_le (l : List Int) (B : Int) (hB : 0 ≤ B) (h : ∀ x ∈ l, x ≤ B) :
    maxOf l ≤ B := by
  rcases maxOf_mem l with h0 | h1
  · rw [h0]; exact hB
  · exact h _ h1

theorem sub64_exact {x y : Int} (hx : isInt32 x) (hy : isInt32 y) :
    sub64 x y = x - y := by
  unfold isInt32 INT_MIN INT_MAX at hx hy
  unfold sub64
  exact wrap64_of_range (by unfold LLONG_MIN; omega) (by unfold LLONG_MAX; omega)

theorem abs_diff_bound {x y : Int} (hx : isInt32 x) (hy : isInt32 y) :
    0 ≤ |x - y| ∧ |x - y| ≤ 4294967295 := by
  unfold isInt32 INT_MIN INT_MAX at hx hy
  refine ⟨abs_nonneg _, ?_⟩
  rw [abs_le]
  constructor <;> omega

theorem adjDiffs_mem : ∀ (a : List Int) (d : Int), d ∈ adjDiffs a →
    ∃ x y, x ∈ a ∧ y ∈ a ∧ d = y - x
  | [], d, h => by simp [adjDiffs] at h
  | [_], d, h => by simp [adjDiffs] at h
  | x :: y :: rest, d, h => by
    rw [adjDiffs] at h
    rcases List.mem_cons.mp h with h1 | h1
    · exact ⟨x, y, List.mem_cons_self _ _,
        List.mem_cons_of_mem _ (List.mem_cons_self _ _), h1⟩
    · obtain ⟨u, v, hu, hv, hd⟩ := adjDiffs_mem (y :: rest) d h1
      exact ⟨u, v, List.mem_cons_of_mem _ hu, List.mem_cons_of_mem _ hv, hd⟩

theorem diffs64_bound (a : List Int) (ha : ∀ x ∈ a, isInt32 x) :
    ∀ v ∈ diffs64 a, 0 ≤ v ∧ v ≤ 4294967295 := by
  intro v hv
  rw [diffs64_eq_absDiffs a ha, absDiffs] at hv
  rcases List.mem_map.mp hv with ⟨d, hd, hdv⟩
  obtain ⟨x, y, hx, hy, hxy⟩ := adjDiffs_mem a d hd
  rw [← hdv, hxy]
  exact abs_diff_bound (ha y hy) (ha x hx)

theorem foldl_pol_op (l : List Int) :
    ∀ (m : Int), 0 ≤ m → l.foldl pol_op m = max m (maxOf l) := by
  induction l with
  | nil =>
    intro m hm
    simp [maxOf_nil, max_eq_left hm]
  | cons x l ih =>
    intro m hm
    rw [List.foldl_cons, pol_op_eq_max, ih _ (le_max_of_le_left hm), maxOf_cons, max_assoc]

theorem custom_adj_eq_combine (a : List Int) (K : Nat) (hN : 2 ≤ a.length) :
    custom_adj a K = combine ((custom_jobs a.length K).map (Job.run a)) 0 := by
  unfold custom_adj
  rw [if_neg (by omega)]

/-! ## The claims, continued -/

/-- C11 (fails on the code): on `[3, 10, 2, 2, 20]` with `K = 2`, once task 0 has
completed the combining loop reads future 0 and updates `g` to `8` while task 1
has not completed. -/
theorem join_updates_before_all_ready :
    join_run [3, 10, 2, 2, 20] (custom_jobs 5 2) (join_init (custom_jobs 5 2))
        [JoinEvent.finish 0, JoinEvent.get]
      = some { ready := [true, false], next := 1, g := 8 } := by
  decide

/-- C11 (amended): in every run of the join of `custom_adj`, each future that the
combining loop has consumed belongs to a completed task; when the loop has
consumed all futures every task has completed and `g` is the value that
`custom_adj` returns; and the run in which the tasks complete in turn reaches
that point. -/
theorem join_consumes_completed (a : List Int) (K : Nat) (hN : 2 ≤ a.length)
    (hK : K < UINT_MOD) :
    (∀ (evs : List JoinEvent) (st : JoinState),
        join_run a (custom_jobs a.length K) (join_init (custom_jobs a.length K)) evs
            = some st →
          (∀ k, k < st.next → st.ready.getD k false = true)
            ∧ (st.next = (custom_jobs a.length K).length →
                (∀ k, k < (custom_jobs a.length K).length → st.ready.getD k false = true)
                  ∧ custom_adj a K = some st.g))
      ∧ (∃ st : JoinState,
          join_run a (custom_jobs a.length K) (join_init (custom_jobs a.length K))
              (join_in_turn (custom_jobs a.length K).length) = some st
            ∧ st.next = (custom_jobs a.length K).length) := by
  constructor
  · intro evs st h
    obtain ⟨_, _, hready, hg⟩ :=
      join_run_inv a _ evs _ st (join_init_inv a _) h
    refine ⟨hready, ?_⟩
    intro hend
    constructor
    · intro k hk
      exact hready k (by omega)
    · rw [custom_adj_eq_combine a K hN, ← hg, hend, List.take_length]
  · obtain ⟨st, hrun, hnext, _, _⟩ :=
      join_in_turn_runs a (custom_jobs a.length K)
        (fun k hk => custom_jobs_run a K k hN hK hk) _ (le_refl _)
    exact ⟨st, hrun, hnext⟩

/-- Witness of C11 (amended) on `[3, 10, 2, 2, 20]` with `K = 2`. -/
theorem join_consumes_completed_witness :
    (2 ≤ [3, 10, 2, 2, 20].length ∧ 2 < UINT_MOD)
      ∧ (∀ (evs : List JoinEvent) (st : JoinState),
        join_run [3, 10, 2, 2, 20] (custom_jobs [3, 10, 2, 2, 20].length 2)
            (join_init (custom_jobs [3, 10, 2, 2, 20].length 2)) evs = some st →
          (∀ k, k < st.next → st.ready.getD k false = true)
            ∧ (st.next = (custom_jobs [3, 10, 2, 2, 20].length 2).length →
                (∀ k, k < (custom_jobs [3, 10, 2, 2, 20].length 2).length →
                    st.ready.getD k false = true)
                  ∧ custom_adj [3, 10, 2, 2, 20] 2 = some st.g))
      ∧ (∃ st : JoinState,
          join_run [3, 10, 2, 2, 20] (custom_jobs [3, 10, 2, 2, 20].length 2)
              (join_init (custom_jobs [3, 10, 2, 2, 20].length 2))
              (join_in_turn (custom_jobs [3, 10, 2, 2, 20].length 2).length) = some st
            ∧ st.next = (custom_jobs [3, 10, 2, 2, 20].length 2).length) :=
  ⟨by decide, join_consumes_completed [3, 10, 2, 2, 20] 2 (by decide) (by decide)⟩

/-- C12: for `N ≥ 2`, `1 ≤ K ≤ N - 1`, `base = (N - 1) / K`, `rem = (N - 1) % K`
and `k < K`, job `k` of `custom_adj` is the asynchronous chunk with
`start = k * base + min k rem` and `end = start + base + (1 if k < rem)`, and its
worker reads exactly the pairs `(i - 1, i)` for `i = start + 1, …, end`, that is
`end - start` pairs. -/
theorem chunk_layout (N K k base rem : Nat) (_hN : 2 ≤ N) (hK1 : 1 ≤ K) (hK2 : K ≤ N - 1)
    (hk : k < K) (hbase : base = (N - 1) / K) (hrem : rem = (N - 1) % K) :
    ∃ s e, (custom_jobs N K)[k]? = some (Job.async s e)
      ∧ s = k * base + min k rem
      ∧ e = s + (base + (if k < rem then 1 else 0))
      ∧ w_reads s e = (List.range' (s + 1) (e - s)).map (fun i => (i - 1, i))
      ∧ (w_reads s e).length = e - s := by
  refine ⟨chunk_start base rem k, chunk_start base rem (k + 1), ?_, rfl, ?_, ?_, ?_⟩
  · rw [custom_jobs_eq N K hK1 hK2, ← hbase, ← hrem]
    simp [hk, chunk_job]
  · exact chunk_start_succ base rem k
  · exact w_reads_eq _ _
  · rw [w_reads_eq]
    simp

/-- Witness of C12 for `N = 11`, `K = 3` and chunk `k = 1`. -/
theorem chunk_layout_witness :
    (2 ≤ 11 ∧ 1 ≤ 3 ∧ 3 ≤ 11 - 1 ∧ 1 < 3 ∧ 3 = (11 - 1) / 3 ∧ 1 = (11 - 1) % 3)
      ∧ ∃ s e, (custom_jobs 11 3)[1]? = some (Job.async s e)
        ∧ s = 1 * 3 + min 1 1
        ∧ e = s + (3 + (if 1 < 1 then 1 else 0))
        ∧ w_reads s e = (List.range' (s + 1) (e - s)).map (fun i => (i - 1, i))
        ∧ (w_reads s e).length = e - s :=
  ⟨by decide, chunk_layout 11 3 1 3 1 (by decide) (by decide) (by decide) (by decide)
    (by decide) (by decide)⟩

/-- C14: the combining lambda of the reduce call is associative and commutative,
and `0` is its identity on non-negative values; on a buffer of non-negative
values every admissible grouping gives the value of the left-to-right fold,
which is `0` for the empty buffer and otherwise an entry of the buffer that
bounds all entries. -/
theorem reduce_order_independent (d : List Int) (t : Sched) (hd : ∀ x ∈ d, 0 ≤ x)
    (ht : t.admissible d.length) :
    (∀ x y z : Int, pol_op (pol_op x y) z = pol_op x (pol_op y z))
      ∧ (∀ x y : Int, pol_op x y = pol_op y x)
      ∧ (∀ x : Int, 0 ≤ x → pol_op 0 x = x ∧ pol_op x 0 = x)
      ∧ Sched.eval d 0 t = d.foldl pol_op 0
      ∧ (d = [] → d.foldl pol_op 0 = 0)
      ∧ (d ≠ [] → d.foldl pol_op 0 ∈ d)
      ∧ (∀ x ∈ d, x ≤ d.foldl pol_op 0) := by
  have hfold : d.foldl pol_op 0 = maxOf d := by
    rw [foldl_pol_op d 0 (le_refl 0), max_eq_right (maxOf_nonneg d)]
  refine ⟨?_, ?_, ?_, ?_, ?_, ?_, ?_⟩
  · intro x y z
    simp only [pol_op_eq_max, max_assoc]
  · intro x y
    simp only [pol_op_eq_max, max_comm]
  · intro x hx
    simp only [pol_op_eq_max]
    exact ⟨max_eq_right hx, max_eq_left hx⟩
  · rw [hfold]
    exact eval_eq_maxOf d t ht
  · intro h
    rw [h]
    rfl
  · intro h
    rw [hfold]
    exact maxOf_mem_of_nonneg d h hd
  · intro x hx
    rw [hfold]
    exact le_maxOf hx

/-- Witness of C14 on the buffer `[7, 8, 0, 18]` with the grouping
`(d[3] ∘ d[1]) ∘ ((d[0] ∘ init) ∘ d[2])`. -/
theorem reduce_order_independent_witness :
    ((∀ x ∈ [7, 8, 0, 18], (0 : Int) ≤ x)
        ∧ (Sched.node (Sched.node (Sched.elem 3) (Sched.elem 1))
            (Sched.node (Sched.node (Sched.elem 0) Sched.init) (Sched.elem 2))).admissible
              [(7 : Int), 8, 0, 18].length)
      ∧ (∀ x y z : Int, pol_op (pol_op x y) z = pol_op x (pol_op y z))
      ∧ (∀ x y : Int, pol_op x y = pol_op y x)
      ∧ (∀ x : Int, 0 ≤ x → pol_op 0 x = x ∧ pol_op x 0 = x)
      ∧ Sched.eval [7, 8, 0, 18] 0
          (Sched.node (Sched.node (Sched.elem 3) (Sched.elem 1))
            (Sched.node (Sched.node (Sched.elem 0) Sched.init) (Sched.elem 2)))
          = [7, 8, 0, 18].foldl pol_op 0
      ∧ ([(7 : Int), 8, 0, 18] = [] → [7, 8, 0, 18].foldl pol_op 0 = 0)
      ∧ ([(7 : Int), 8, 0, 18] ≠ [] → [7, 8, 0, 18].foldl pol_op 0 ∈ [(7 : Int), 8, 0, 18])
      ∧ (∀ x ∈ [7, 8, 0, 18], x ≤ [7, 8, 0, 18].foldl pol_op 0) :=
  ⟨⟨by decide, by unfold Sched.admissible; decide⟩,
    reduce_order_independent [7, 8, 0, 18]
      (Sched.node (Sched.node (Sched.elem 3) (Sched.elem 1))
        (Sched.node (Sched.node (Sched.elem 0) Sched.init) (Sched.elem 2)))
      (by decide) (by unfold Sched.admissible; decide)⟩

theorem int32_of_bounded {x : Int} (h : -1000000 ≤ x ∧ x ≤ 1000000) : isInt32 x := by
  unfold isInt32 INT_MIN INT_MAX
  omega

theorem adjDiffs_fit_of_bounded (a : List Int)
    (h : ∀ x ∈ a, -1000000 ≤ x ∧ x ≤ 1000000) :
    ∀ d ∈ adjDiffs a, isInt32 d := by
  intro d hd
  obtain ⟨x, y, hx, hy, hxy⟩ := adjDiffs_mem a d hd
  have h1 := h x hx
  have h2 := h y hy
  unfold isInt32 INT_MIN INT_MAX
  omega

theorem custom_adj_exact (a : List Int) (ha : ∀ x ∈ a, isInt32 x) (K : Nat)
    (hK : K < UINT_MOD) :
    custom_adj a K = some (maxAbsDiff a) := by
  by_cases hN : a.length < 2
  · have h0 : maxAbsDiff a = 0 := by
      unfold maxAbsDiff
      have hl := length_absDiffs a
      have : absDiffs a = [] := List.length_eq_zero.mp (by omega)
      rw [this]
      rfl
    rw [h0]
    exact custom_adj_short a K hN
  · rw [custom_adj_eq a K (by omega) hK, diffs64_eq_absDiffs a ha]
    rfl

/-- When every element lies in `[-1000000, 1000000]`, or when the elements are
`int` values and every adjacent difference fits in an `int`, no `int` subtraction
of `std::adjacent_difference` wraps, `lib_adj` returns the exact maximum absolute
adjacent difference, and `custom_adj` returns the same value for every `unsigned`
`K`. -/
theorem lib_adj_custom_adj_agree (a : List Int)
    (hfit : (∀ x ∈ a, -1000000 ≤ x ∧ x ≤ 1000000)
      ∨ ((∀ x ∈ a, isInt32 x) ∧ ∀ d ∈ adjDiffs a, isInt32 d))
    (K : Nat) (hK : K < UINT_MOD) :
    (∀ d ∈ adjDiffs a, wrap32 d = d)
      ∧ lib_adj a = maxAbsDiff a
      ∧ custom_adj a K = some (lib_adj a) := by
  have ha : ∀ x ∈ a, isInt32 x := by
    rcases hfit with h | h
    · intro x hx
      exact int32_of_bounded (h x hx)
    · exact h.1
  have hd : ∀ d ∈ adjDiffs a, isInt32 d := by
    rcases hfit with h | h
    · exact adjDiffs_fit_of_bounded a h
    · exact h.2
  have hlib := lib_adj_exact a hd
  refine ⟨fun d hdm => wrap32_of_range (hd d hdm), hlib, ?_⟩
  rw [hlib]
  exact custom_adj_exact a ha K hK

/-- C16: for `N ≥ 2` and any `unsigned` `K`, after the clamping `base` is at least
`1` and every chunk gets `cnt ≥ 1` pairs; no deferred task is enqueued, exactly
as many asynchronous tasks are launched as the clamped `K`, and each of them has
`s < e`, so the early return of the worker is not taken. -/
theorem no_empty_chunk (N K : Nat) (hN : 2 ≤ N) (hK : K < UINT_MOD) :
    1 ≤ (N - 1) / clampK N K
      ∧ (∀ k, k < clampK N K →
          1 ≤ (N - 1) / clampK N K + (if k < (N - 1) % clampK N K then 1 else 0))
      ∧ Job.deferred ∉ custom_jobs N K
      ∧ (custom_jobs N K).length = clampK N K
      ∧ (∀ s e, Job.async s e ∈ custom_jobs N K → s < e ∧ w_reads s e ≠ []) := by
  have hb := clampK_bounds N K hN hK
  have hbase : 1 ≤ (N - 1) / clampK N K :=
    (Nat.le_div_iff_mul_le (by omega)).mpr (by omega)
  refine ⟨hbase, ?_, ?_, length_custom_jobs N K hN hK, ?_⟩
  · intro k _
    omega
  · intro h
    obtain ⟨s, e, hj, _, _⟩ := custom_jobs_mem N K hN hK _ h
    cases hj
  · intro s e h
    obtain ⟨s1, e1, hj, hlt, _⟩ := custom_jobs_mem N K hN hK _ h
    cases hj
    refine ⟨hlt, ?_⟩
    intro hnil
    have hl := congrArg List.length hnil
    rw [w_reads_eq] at hl
    simp at hl
    omega

/-- Witness of C16 for `N = 5` and `K = 9`. -/
theorem no_empty_chunk_witness :
    (2 ≤ 5 ∧ 9 < UINT_MOD)
      ∧ 1 ≤ (5 - 1) / clampK 5 9
      ∧ (∀ k, k < clampK 5 9 →
          1 ≤ (5 - 1) / clampK 5 9 + (if k < (5 - 1) % clampK 5 9 then 1 else 0))
      ∧ Job.deferred ∉ custom_jobs 5 9
      ∧ (custom_jobs 5 9).length = clampK 5 9
      ∧ (∀ s e, Job.async s e ∈ custom_jobs 5 9 → s < e ∧ w_reads s e ≠ []) :=
  ⟨by decide, no_empty_chunk 5 9 (by decide) (by decide)⟩

theorem custom_jobs_getLast? (N K : Nat) (hN : 2 ≤ N) (hK : K < UINT_MOD) :
    ∃ s, (custom_jobs N K).getLast? = some (Job.async s (N - 1)) := by
  have hb := clampK_bounds N K hN hK
  refine ⟨chunk_start ((N - 1) / clampK N K) ((N - 1) % clampK N K) (clampK N K - 1), ?_⟩
  rw [custom_jobs_clamped N K hN hK, List.getLast?_map, List.getLast?_range,
    if_neg (by omega)]
  simp only [Option.map_some', chunk_job]
  rw [Nat.sub_add_cancel hb.1, chunk_start_total (N - 1) (clampK N K) hb.1]

theorem custom_jobs_run_isSome (a : List Int) (K : Nat) (hN : 2 ≤ a.length)
    (hK : K < UINT_MOD) (j : Job) (hj : j ∈ custom_jobs a.length K) :
    ∃ s e, j = Job.async s e
      ∧ Job.run a j = some (maxOf (((diffs64 a).drop s).take (e - s))) := by
  obtain ⟨s, e, hje, hlt, hle⟩ := custom_jobs_mem a.length K hN hK j hj
  refine ⟨s, e, hje, ?_⟩
  rw [hje, Job.run]
  exact w_eq a s e hlt hle

/-- C17: for a sequence of length `N ≥ 2` and any `unsigned` `K`, the divisor of
`total / K` and `total % K` is at least `1` (it is `1` for `K = 0`); every pair of
indices `(i - 1, i)` read by a worker has `1 ≤ i ≤ N - 1`; the last chunk ends at
`e = N - 1`; every task and `custom_adj` itself deliver a value, no read leaving
the vector. -/
theorem index_safety (a : List Int) (K : Nat) (hN : 2 ≤ a.length) (hK : K < UINT_MOD) :
    1 ≤ clampK a.length K
      ∧ clampK a.length 0 = 1
      ∧ (∀ j ∈ custom_jobs a.length K, ∀ r ∈ j.reads,
          r.1 + 1 = r.2 ∧ 1 ≤ r.2 ∧ r.2 ≤ a.length - 1 ∧ r.2 < a.length)
      ∧ (∃ s, (custom_jobs a.length K).getLast? = some (Job.async s (a.length - 1)))
      ∧ (∀ j ∈ custom_jobs a.length K, (Job.run a j).isSome = true)
      ∧ (custom_adj a K).isSome = true := by
  refine ⟨(clampK_bounds a.length K hN hK).1, ?_, ?_,
    custom_jobs_getLast? a.length K hN hK, ?_, ?_⟩
  · rw [clampK_eq a.length 0 hN (by decide), max_eq_right (by omega),
      min_eq_left (by omega)]
  · intro j hj r hr
    obtain ⟨s, e, hje, _, hle⟩ := custom_jobs_mem a.length K hN hK j hj
    rw [hje, Job.reads] at hr
    have h := mem_w_reads hr
    omega
  · intro j hj
    obtain ⟨s, e, _, hrun⟩ := custom_jobs_run_isSome a K hN hK j hj
    rw [hrun]
    rfl
  · rw [custom_adj_eq a K hN hK]
    rfl

/-- Witness of C17 on `[3, 10, 2, 2, 20]` with `K = 0`. -/
theorem index_safety_witness :
    (2 ≤ [3, 10, 2, 2, 20].length ∧ 0 < UINT_MOD)
      ∧ 1 ≤ clampK [3, 10, 2, 2, 20].length 0
      ∧ clampK [3, 10, 2, 2, 20].length 0 = 1
      ∧ (∀ j ∈ custom_jobs [3, 10, 2, 2, 20].length 0, ∀ r ∈ j.reads,
          r.1 + 1 = r.2 ∧ 1 ≤ r.2 ∧ r.2 ≤ [3, 10, 2, 2, 20].length - 1
            ∧ r.2 < [3, 10, 2, 2, 20].length)
      ∧ (∃ s, (custom_jobs [3, 10, 2, 2, 20].length 0).getLast?
          = some (Job.async s ([3, 10, 2, 2, 20].length - 1)))
      ∧ (∀ j ∈ custom_jobs [3, 10, 2, 2, 20].length 0,
          (Job.run [3, 10, 2, 2, 20] j).isSome = true)
      ∧ (custom_adj [3, 10, 2, 2, 20] 0).isSome = true :=
  ⟨by decide, index_safety [3, 10, 2, 2, 20] 0 (by decide) (by decide)⟩

/-- C18: for `int` values `x`, `y` the 64-bit difference is exact and is not the
minimum 64-bit value, and its `llabs` is `|x - y|`, within `[0, 2^32 - 1]`; hence
for a sequence of `int` values every difference computed by `pol_adj` and
`custom_adj`, every partial result, the result of `custom_adj` for every
`unsigned` `K` and the result of `pol_adj` lie in `[0, 2^32 - 1]`. -/
theorem no_overflow_64 (a : List Int) (ha : ∀ x ∈ a, isInt32 x) (K : Nat)
    (hK : K < UINT_MOD) (p : Exec) (t : Sched) (ht : t.admissible (a.length - 1)) :
    (∀ x y : Int, isInt32 x → isInt32 y →
        sub64 x y = x - y ∧ sub64 x y ≠ LLONG_MIN ∧ llabs (sub64 x y) = |x - y|
          ∧ 0 ≤ llabs (sub64 x y) ∧ llabs (sub64 x y) ≤ 4294967295)
      ∧ (∀ v ∈ diffs64 a, 0 ≤ v ∧ v ≤ 4294967295)
      ∧ (2 ≤ a.length → ∀ j ∈ custom_jobs a.length K,
          ∃ v, Job.run a j = some v ∧ 0 ≤ v ∧ v ≤ 4294967295)
      ∧ (∃ v, custom_adj a K = some v ∧ 0 ≤ v ∧ v ≤ 4294967295)
      ∧ (0 ≤ pol_adj a p t ∧ pol_adj a p t ≤ 4294967295) := by
  have hdb := diffs64_bound a ha
  have hmax : 0 ≤ maxAbsDiff a ∧ maxAbsDiff a ≤ 4294967295 := by
    constructor
    · exact maxOf_nonneg _
    · apply maxOf_le _ _ (by decide)
      intro x hx
      rw [← diffs64_eq_absDiffs a ha] at hx
      exact (hdb x hx).2
  have hk := custom_adj_exact a ha K hK
  have _hadm := ht
  refine ⟨?_, hdb, ?_, ⟨_, hk, hmax⟩, ?_⟩
  · intro x y hx hy
    have h1 := sub64_exact hx hy
    have h2 := pol_diff_exact hy hx
    unfold pol_diff at h2
    have h3 := abs_diff_bound hx hy
    refine ⟨h1, ?_, h2, ?_, ?_⟩
    · rw [h1]
      unfold isInt32 INT_MIN INT_MAX at hx hy
      unfold LLONG_MIN
      omega
    · rw [h2]; exact h3.1
    · rw [h2]; exact h3.2
  · intro hN j hj
    obtain ⟨s, e, _, hrun⟩ := custom_jobs_run_isSome a K hN hK j hj
    refine ⟨_, hrun, maxOf_nonneg _, ?_⟩
    apply maxOf_le _ _ (by decide)
    intro x hx
    exact (hdb x (List.mem_of_mem_drop (List.mem_of_mem_take hx))).2
  · rw [pol_adj_eq a p t]
    decide

/-- Witness of C18 on `[-2147483648, 2147483647, 0]` with `K = 2`. -/
theorem no_overflow_64_witness :
    ((∀ x ∈ [-2147483648, 2147483647, 0], isInt32 x) ∧ 2 < UINT_MOD
        ∧ (Sched.leftFold 2).admissible ([(-2147483648 : Int), 2147483647, 0].length - 1))
      ∧ (∀ x y : Int, isInt32 x → isInt32 y →
        sub64 x y = x - y ∧ sub64 x y ≠ LLONG_MIN ∧ llabs (sub64 x y) = |x - y|
          ∧ 0 ≤ llabs (sub64 x y) ∧ llabs (sub64 x y) ≤ 4294967295)
      ∧ (∀ v ∈ diffs64 [-2147483648, 2147483647, 0], 0 ≤ v ∧ v ≤ 4294967295)
      ∧ (2 ≤ [(-2147483648 : Int), 2147483647, 0].length →
          ∀ j ∈ custom_jobs [(-2147483648 : Int), 2147483647, 0].length 2,
            ∃ v, Job.run [-2147483648, 2147483647, 0] j = some v ∧ 0 ≤ v ∧ v ≤ 4294967295)
      ∧ (∃ v, custom_adj [-2147483648, 2147483647, 0] 2 = some v ∧ 0 ≤ v ∧ v ≤ 4294967295)
      ∧ (0 ≤ pol_adj [-2147483648, 2147483647, 0] Exec.seq (Sched.leftFold 2)
          ∧ pol_adj [-2147483648, 2147483647, 0] Exec.seq (Sched.leftFold 2) ≤ 4294967295) :=
  ⟨⟨by decide, by decide, leftFold_admissible 2⟩,
    no_overflow_64 [-2147483648, 2147483647, 0] (by decide) 2 (by decide) Exec.seq
      (Sched.leftFold 2) (leftFold_admissible 2)⟩

end AdjLab
